import Mathlib

/-!
Verification of the sharestream-local repository core: the chunked
file-transfer sender (`src/components/FileTransferZone.tsx`, `sendFiles`)
and the local content store (`src/lib/localServer.ts`).

Machine integers of the source are modelled as `Nat` (all quantities are
non-negative byte counts and indices, far from any overflow boundary the
source relies on); `ArrayBuffer` byte contents as `List Nat`; JavaScript
`Map` as an association list with JS `Map.set`/`Map.delete` semantics.
-/

namespace ShareStream

/-- `CHUNK_SIZE` from `FileTransferZone.tsx` line 182: 16 KB chunks. -/
def CHUNK_SIZE : Nat := 16384

/-- `Math.ceil(size / chunkSize)` on natural numbers
(`FileTransferZone.tsx` line 183). -/
def totalChunks (size csize : Nat) : Nat := (size + csize - 1) / csize

/-- A browser `File` as the sender sees it: name, MIME type, lastModified
timestamp, and its byte contents.  The Web File API defines `file.size`
as the byte length of its contents, so `size` is `bytes.length` here. -/
structure SFile where
  name : String
  type : String
  lastModified : Nat
  bytes : List Nat
  deriving DecidableEq, Repr

/-- `file.size` of the Web File API: the byte length of the blob. -/
def SFile.size (f : SFile) : Nat := f.bytes.length

/-- The chunk sequence the sender produces, `FileTransferZone.tsx`
lines 182-187: for `j` in `[0, chunks)` the payload is
`file.slice(j*chunkSize, j*chunkSize + chunkSize)`, i.e. drop the offset
and take at most `chunkSize` bytes. -/
def split (bytes : List Nat) (csize : Nat) : List (List Nat) :=
  (List.range (totalChunks bytes.length csize)).map
    (fun j => (bytes.drop (j * csize)).take csize)

/-- Error raised by reassembly when a chunk slot is missing. -/
inductive ReassembleError where
  | IncompleteTransfer
  deriving DecidableEq, Repr

/-- Modelled from the spec: the receiver-side `ChunkCodec.reassemble` is
not part of the sources under `src/` (only the sender is); §4.1 of the
spec defines it as: given an ordered slot array of payloads and an
expected total, fail with `IncompleteTransfer` if any slot in
`[0, expectedTotal)` is absent, otherwise concatenate the payloads in
strictly ascending chunk-index order, with no gap-filling or padding. -/
def reassemble (slots : List (Option (List Nat))) (expectedTotal : Nat) :
    Except ReassembleError (List Nat) :=
  if (List.range expectedTotal).all (fun i => (slots.getD i none).isSome) then
    Except.ok (((List.range expectedTotal).map
      (fun i => (slots.getD i none).getD [])).flatten)
  else
    Except.error ReassembleError.IncompleteTransfer

/- Arithmetic facts about `totalChunks`. -/

theorem totalChunks_eq (n c : Nat) (hn : 0 < n) :
    totalChunks n c = (n - 1 + c) / c := by
  unfold totalChunks
  congr 1
  omega

theorem le_totalChunks_mul (n c : Nat) (hc : 0 < c) :
    n ≤ totalChunks n c * c := by
  rcases Nat.eq_zero_or_pos n with h0 | hn
  · simp [h0]
  · rw [totalChunks_eq n c hn, Nat.add_div_right _ hc]
    have h3 : n - 1 < ((n - 1) / c + 1) * c :=
      (Nat.div_lt_iff_lt_mul hc).mp (Nat.lt_succ_self ((n - 1) / c))
    omega

theorem totalChunks_pred_mul_lt (n c : Nat) (hc : 0 < c) (hn : 0 < n) :
    (totalChunks n c - 1) * c < n := by
  rw [totalChunks_eq n c hn, Nat.add_div_right _ hc, Nat.add_sub_cancel]
  have h1 : (n - 1) / c * c ≤ n - 1 := Nat.div_mul_le_self _ _
  omega

theorem totalChunks_pos (n c : Nat) (hc : 0 < c) (hn : 0 < n) :
    0 < totalChunks n c := by
  rcases Nat.eq_zero_or_pos (totalChunks n c) with h0 | h
  · exfalso
    have := le_totalChunks_mul n c hc
    rw [h0] at this
    omega
  · exact h

/-- Concatenating the first `n` chunks of size `c` recovers the first
`n * c` bytes. -/
theorem join_range_take_drop (c : Nat) :
    ∀ (n : Nat) (l : List Nat),
      ((List.range n).map (fun j => (l.drop (j * c)).take c)).flatten
        = l.take (n * c) := by
  intro n
  induction n with
  | zero => intro l; simp
  | succ n ih =>
    intro l
    rw [List.range_succ_eq_map]
    simp only [List.map_cons, List.map_map, List.flatten_cons]
    have hdrop : ∀ j : Nat, l.drop ((j + 1) * c) = (l.drop c).drop (j * c) := by
      intro j
      rw [List.drop_drop]
      congr 1
      ring
    have hcomp :
        ((List.range n).map ((fun j => (l.drop (j * c)).take c) ∘ (· + 1)))
          = (List.range n).map (fun j => ((l.drop c).drop (j * c)).take c) := by
      apply List.map_congr_left
      intro j _
      simp only [Function.comp_apply]
      rw [hdrop j]
    rw [hcomp, ih (l.drop c)]
    have h1 : (n + 1) * c = c + n * c := by ring
    rw [h1, List.take_add]
    simp

/-- The chunks of `split` concatenate back to the input bytes. -/
theorem join_split (bytes : List Nat) (c : Nat) (hc : 0 < c) :
    (split bytes c).flatten = bytes := by
  unfold split
  rw [join_range_take_drop]
  exact List.take_of_length_le (le_totalChunks_mul _ _ hc)

theorem split_length (bytes : List Nat) (c : Nat) :
    (split bytes c).length = totalChunks bytes.length c := by
  unfold split
  simp

/-- Reading every position of a list by `getD` over its range rebuilds
the list. -/
theorem range_map_getD (d : List Nat) :
    ∀ (L : List (List Nat)),
      (List.range L.length).map (fun i => L.getD i d) = L := by
  intro L
  induction L with
  | nil => simp
  | cons a t ih =>
    simp only [List.length_cons, List.range_succ_eq_map, List.map_cons,
      List.map_map]
    congr 1

/-- Element `i` of a map over `List.range n`, for `i < n`. -/
theorem getD_range_map (f : Nat → List Nat) (n i : Nat) (d : List Nat)
    (h : i < n) : ((List.range n).map f).getD i d = f i := by
  rw [List.getD_eq_getElem?_getD, List.getElem?_map, List.getElem?_range h]
  rfl

/-- `getD` on a list of `some`-wrapped slots hits a present slot below the
length. -/
theorem map_some_getD (L : List (List Nat)) :
    ∀ i, i < L.length → (L.map some).getD i none = some (L.getD i []) := by
  induction L with
  | nil => intro i h; simp at h
  | cons a t ih =>
    intro i h
    cases i with
    | zero => rfl
    | succ i =>
      simp only [List.length_cons, Nat.succ_lt_succ_iff] at h
      exact ih i h

/-- C1: for every byte sequence and every chunk size `c > 0`, reassembling
the chunk sequence produced by `split` (payloads concatenated in strictly
ascending chunk-index order) yields exactly the original bytes. -/
theorem reassemble_split_roundtrip (bytes : List Nat) (c : Nat) (hc : 0 < c) :
    reassemble ((split bytes c).map some) (totalChunks bytes.length c)
      = Except.ok bytes := by
  unfold reassemble
  have hlen : (split bytes c).length = totalChunks bytes.length c :=
    split_length bytes c
  have hall : ((List.range (totalChunks bytes.length c)).all
      (fun i => (((split bytes c).map some).getD i none).isSome)) = true := by
    rw [List.all_eq_true]
    intro i hi
    rw [List.mem_range] at hi
    rw [map_some_getD (split bytes c) i (by rw [hlen]; exact hi)]
    rfl
  rw [if_pos hall]
  congr 1
  have hmap : (List.range (totalChunks bytes.length c)).map
      (fun i => (((split bytes c).map some).getD i none).getD [])
      = (List.range (totalChunks bytes.length c)).map
        (fun i => (split bytes c).getD i []) := by
    apply List.map_congr_left
    intro i hi
    rw [List.mem_range] at hi
    rw [map_some_getD (split bytes c) i (by rw [hlen]; exact hi)]
    rfl
  rw [hmap, ← hlen, range_map_getD [] (split bytes c)]
  exact join_split bytes c hc

/-- C1 witness: the round trip on the concrete bytes `[1,2,3]` with chunk
size 2. -/
theorem reassemble_split_roundtrip_witness :
    0 < 2 ∧ reassemble ((split [1, 2, 3] 2).map some)
      (totalChunks (List.length [1, 2, 3]) 2) = Except.ok [1, 2, 3] :=
  ⟨by decide, reassemble_split_roundtrip [1, 2, 3] 2 (by decide)⟩

/-- C3: with the sender's 16384-byte chunk size, the chunk count is
`ceil(size / 16384)`, every chunk but the last carries exactly 16384
payload bytes, the last carries the remainder, a 1-byte file yields one
chunk and a 50000-byte file yields four. -/
theorem split_chunk_sizes (bytes : List Nat) :
    (split bytes CHUNK_SIZE).length = totalChunks bytes.length CHUNK_SIZE
    ∧ (∀ i, i + 1 < totalChunks bytes.length CHUNK_SIZE →
        ((split bytes CHUNK_SIZE).getD i []).length = CHUNK_SIZE)
    ∧ (bytes ≠ [] →
        ((split bytes CHUNK_SIZE).getD
          (totalChunks bytes.length CHUNK_SIZE - 1) []).length
          = bytes.length - (totalChunks bytes.length CHUNK_SIZE - 1) * CHUNK_SIZE)
    ∧ totalChunks 1 CHUNK_SIZE = 1
    ∧ totalChunks 50000 CHUNK_SIZE = 4 := by
  have hc : 0 < CHUNK_SIZE := by decide
  refine ⟨split_length bytes CHUNK_SIZE, ?_, ?_, by decide, by decide⟩
  · intro i hi
    have hn : 0 < bytes.length := by
      by_contra h0
      have : bytes.length = 0 := by omega
      rw [this] at hi
      have : totalChunks 0 CHUNK_SIZE = 0 := by decide
      omega
    unfold split
    rw [getD_range_map _ _ _ _ (by omega)]
    rw [List.length_take, List.length_drop]
    have h1 : i + 1 ≤ totalChunks bytes.length CHUNK_SIZE - 1 := by omega
    have h2 : (i + 1) * CHUNK_SIZE
        ≤ (totalChunks bytes.length CHUNK_SIZE - 1) * CHUNK_SIZE :=
      Nat.mul_le_mul_right _ h1
    have h3 : (totalChunks bytes.length CHUNK_SIZE - 1) * CHUNK_SIZE
        < bytes.length := totalChunks_pred_mul_lt _ _ hc hn
    have h4 : i * CHUNK_SIZE + CHUNK_SIZE ≤ bytes.length := by
      have : (i + 1) * CHUNK_SIZE = i * CHUNK_SIZE + CHUNK_SIZE := by ring
      omega
    omega
  · intro hne
    have hn : 0 < bytes.length := List.length_pos.mpr hne
    have htc : 0 < totalChunks bytes.length CHUNK_SIZE :=
      totalChunks_pos _ _ hc hn
    unfold split
    rw [getD_range_map _ _ _ _ (by omega)]
    rw [List.length_take, List.length_drop]
    have hle : bytes.length ≤ totalChunks bytes.length CHUNK_SIZE * CHUNK_SIZE :=
      le_totalChunks_mul _ _ hc
    obtain ⟨t, ht⟩ : ∃ t, totalChunks bytes.length CHUNK_SIZE = t + 1 :=
      ⟨totalChunks bytes.length CHUNK_SIZE - 1, by omega⟩
    rw [ht] at hle ⊢
    have : (t + 1) * CHUNK_SIZE = t * CHUNK_SIZE + CHUNK_SIZE := by ring
    simp only [Nat.add_sub_cancel]
    omega

/-- C3 witness: a 3-byte file split with the 16384-byte chunk size has one
chunk holding all three bytes, and the claimed chunk counts for 1-byte
and 50000-byte files hold. -/
theorem split_chunk_sizes_witness :
    ((0 : Nat) + 1 < totalChunks (List.length [7, 8, 9]) CHUNK_SIZE → False)
    ∧ [7, 8, 9] ≠ ([] : List Nat)
    ∧ ((split [7, 8, 9] CHUNK_SIZE).getD
        (totalChunks (List.length [7, 8, 9]) CHUNK_SIZE - 1) []).length
        = List.length [7, 8, 9]
          - (totalChunks (List.length [7, 8, 9]) CHUNK_SIZE - 1) * CHUNK_SIZE
    ∧ totalChunks 1 CHUNK_SIZE = 1
    ∧ totalChunks 50000 CHUNK_SIZE = 4 := by
  refine ⟨by decide, by decide, (split_chunk_sizes [7, 8, 9]).2.2.1 (by decide),
    (split_chunk_sizes [7, 8, 9]).2.2.2.1, (split_chunk_sizes [7, 8, 9]).2.2.2.2⟩

/-! ## Sender (`FileTransferZone.tsx`, `sendFiles`, lines 151-220) -/

/-- One entry of the metadata array the sender builds (lines 164-169):
`{name, size, type, lastModified}`. -/
structure FileDesc where
  name : String
  size : Nat
  type : String
  lastModified : Nat
  deriving DecidableEq, Repr

/-- The descriptor `sendFiles` builds for a file (lines 164-169). -/
def descOf (f : SFile) : FileDesc :=
  ⟨f.name, f.size, f.type, f.lastModified⟩

/-- The tagged protocol messages written to the channel: lines 171-174
(`type: 'metadata'`), 197-203 (`type: 'chunk'`), 211-213
(`type: 'complete'`). -/
inductive Envelope where
  | metadata (files : List FileDesc)
  | chunk (fileIndex chunkIndex tChunks : Nat) (data : List Nat)
  | complete
  deriving DecidableEq, Repr

/-- Observable sender actions, in program order: a channel write
(`connection.send`) or a progress-state write (`setTransferProgress`,
which keys the map by the string `file-${i}`, injective in `i`, so the
key is modelled as `i`). -/
inductive Event where
  | sent (env : Envelope)
  | progressSet (fileIndex percent : Nat)
  deriving DecidableEq, Repr

/-- `Math.round((k / n) * 100)` for natural `k ≤ n`, `0 < n`: round half
away from zero on the exact rational, i.e. `⌊(100k + n/2) / n⌋ =
⌊(200k + n) / 2n⌋` (line 190). -/
def jsRound100 (k n : Nat) : Nat := (200 * k + n) / (2 * n)

/-- `Math.ceil(file.size / chunkSize)` for one file (line 183). -/
def fileChunks (f : SFile) : Nat := totalChunks f.size CHUNK_SIZE

/-- The events of the inner chunk loop (lines 185-207) for file index
`i`: for each chunk `j` the code first writes the progress
`round(100*(j+1)/chunks)` and then sends the chunk envelope. -/
def chunkEvents (i : Nat) (f : SFile) : List Event :=
  (List.range (fileChunks f)).flatMap (fun j =>
    [Event.progressSet i (jsRound100 (j + 1) (fileChunks f)),
     Event.sent (Envelope.chunk i j (fileChunks f)
       ((f.bytes.drop (j * CHUNK_SIZE)).take CHUNK_SIZE))])

/-- The full event trace of a successful `sendFiles` run (lines 163-213):
one metadata send, then the per-file chunk loops in input order, then one
completion send. -/
def sendTrace (files : List SFile) : List Event :=
  Event.sent (Envelope.metadata (files.map descOf))
    :: (files.enum.flatMap (fun p => chunkEvents p.1 p.2))
    ++ [Event.sent Envelope.complete]

/-- The two failure modes of `sendFiles` (lines 152-159): the toast text
"No active connection" and "No files selected". -/
inductive SendError where
  | NoActiveChannel
  | NoFilesSelected
  deriving DecidableEq, Repr

/-- Result of a `sendFiles` call: the reported error, if any, and the
emitted event trace. -/
structure SendOutcome where
  error : Option SendError
  events : List Event
  deriving DecidableEq, Repr

/-- `sendFiles` (lines 151-220): `if (!connection || files.length === 0)`
report `connection ? "No files selected" : "No active connection"` and
return without any channel write or progress write; otherwise run the
send loop. The channel is modelled by whether a connection is present. -/
def sendFiles (connected : Bool) (files : List SFile) : SendOutcome :=
  if connected = false ∨ files.length = 0 then
    ⟨some (if connected then SendError.NoFilesSelected
           else SendError.NoActiveChannel), []⟩
  else
    ⟨none, sendTrace files⟩

/-- The envelopes written to the channel, in order. -/
def sentEnvelopes (o : SendOutcome) : List Envelope :=
  o.events.filterMap (fun e => match e with
    | Event.sent env => some env
    | Event.progressSet _ _ => none)

def isMetadataEnv : Envelope → Bool
  | Envelope.metadata _ => true
  | _ => false

def isChunkEnv : Envelope → Bool
  | Envelope.chunk _ _ _ _ => true
  | _ => false

def isCompleteEnv : Envelope → Bool
  | Envelope.complete => true
  | _ => false

/-- JS-`Map.set` on a progress map keyed by file index. -/
def progSet : List (Nat × Nat) → Nat → Nat → List (Nat × Nat)
  | [], i, v => [(i, v)]
  | q :: rest, i, v =>
    if q.1 = i then (i, v) :: rest else q :: progSet rest i v

/-- Replay the progress writes of a trace onto a progress map. -/
def applyProgress (evs : List Event) (p : List (Nat × Nat)) :
    List (Nat × Nat) :=
  evs.foldl (fun acc e => match e with
    | Event.progressSet i v => progSet acc i v
    | Event.sent _ => acc) p

/-- C5: `sendFiles` fails with `NoActiveChannel` when no connection is
present and with `NoFilesSelected` when a connection is present but the
file list is empty; in either failure case no envelope is sent and the
progress state is unchanged. -/
theorem sendFiles_failure_spec (connected : Bool) (files : List SFile)
    (p : List (Nat × Nat)) :
    (connected = false →
      sendFiles connected files = ⟨some SendError.NoActiveChannel, []⟩)
    ∧ (connected = true → files = [] →
      sendFiles connected files = ⟨some SendError.NoFilesSelected, []⟩)
    ∧ ((sendFiles connected files).error.isSome →
      sentEnvelopes (sendFiles connected files) = []
      ∧ applyProgress (sendFiles connected files).events p = p) := by
  refine ⟨?_, ?_, ?_⟩
  · intro h
    subst h
    rfl
  · intro h hf
    subst h
    subst hf
    rfl
  · intro herr
    unfold sendFiles at herr ⊢
    by_cases hcond : connected = false ∨ files.length = 0
    · rw [if_pos hcond]
      exact ⟨rfl, rfl⟩
    · rw [if_neg hcond] at herr
      simp [Option.isSome] at herr

/-- C5 witness: both failure modes at concrete inputs. -/
theorem sendFiles_failure_spec_witness :
    sendFiles false [⟨"a", "text/plain", 0, [1]⟩]
      = ⟨some SendError.NoActiveChannel, []⟩
    ∧ sendFiles true ([] : List SFile)
      = ⟨some SendError.NoFilesSelected, []⟩
    ∧ sentEnvelopes (sendFiles false [⟨"a", "text/plain", 0, [1]⟩]) = []
    ∧ applyProgress (sendFiles false [⟨"a", "text/plain", 0, [1]⟩]).events
        [(0, 37)] = [(0, 37)] := by
  refine ⟨(sendFiles_failure_spec false [⟨"a", "text/plain", 0, [1]⟩] []).1 rfl,
    (sendFiles_failure_spec true [] []).2.1 rfl rfl,
    (sendFiles_failure_spec false [⟨"a", "text/plain", 0, [1]⟩] [(0, 37)]).2.2
      (by decide) |>.1,
    (sendFiles_failure_spec false [⟨"a", "text/plain", 0, [1]⟩] [(0, 37)]).2.2
      (by decide) |>.2⟩

/-- The channel-write projection of an event. -/
def envProj : Event → Option Envelope
  | Event.sent env => some env
  | Event.progressSet _ _ => none

theorem sentEnvelopes_eq_filterMap (o : SendOutcome) :
    sentEnvelopes o = o.events.filterMap envProj := by
  unfold sentEnvelopes envProj
  rfl

theorem filterMap_envProj_cons_sent (env : Envelope) (t : List Event) :
    (Event.sent env :: t).filterMap envProj = env :: t.filterMap envProj := by
  rw [List.filterMap_cons]
  rfl

/-- `filterMap` distributes over `flatMap`. -/
theorem filterMap_flatMap_comm {α β γ : Type} (l : List α) (g : α → List β)
    (h : β → Option γ) :
    (l.flatMap g).filterMap h = l.flatMap (fun a => (g a).filterMap h) := by
  induction l with
  | nil => simp
  | cons a t ih => simp [List.flatMap_cons, List.filterMap_append, ih]

/-- The chunk envelopes the sender writes for file index `i` (lines
196-203), in ascending chunk-index order. -/
def chunkEnvelopesOf (i : Nat) (f : SFile) : List Envelope :=
  (List.range (fileChunks f)).map (fun j =>
    Envelope.chunk i j (fileChunks f)
      ((f.bytes.drop (j * CHUNK_SIZE)).take CHUNK_SIZE))

/-- All chunk envelopes of a transfer, files in input order. -/
def chunkStream (files : List SFile) : List Envelope :=
  files.enum.flatMap (fun p => chunkEnvelopesOf p.1 p.2)

theorem filterMap_chunkEvents (i : Nat) (f : SFile) :
    (chunkEvents i f).filterMap envProj = chunkEnvelopesOf i f := by
  unfold chunkEvents chunkEnvelopesOf
  rw [filterMap_flatMap_comm]
  induction (List.range (fileChunks f)) with
  | nil => rfl
  | cons j t ih =>
    simp only [List.flatMap_cons, List.map_cons]
    rw [ih]
    rfl

theorem chunkStream_all_chunks (files : List SFile) :
    ∀ e ∈ chunkStream files, isChunkEnv e = true := by
  intro e he
  unfold chunkStream at he
  rcases List.mem_flatMap.mp he with ⟨p, _, hp⟩
  unfold chunkEnvelopesOf at hp
  rcases List.mem_map.mp hp with ⟨j, _, hj⟩
  rw [← hj]
  rfl

theorem sendFiles_ok (files : List SFile) (h : files ≠ []) :
    sendFiles true files = ⟨none, sendTrace files⟩ := by
  have hcond : ¬(true = false ∨ files.length = 0) := by
    intro hc
    rcases hc with hc | hf
    · exact absurd hc (by decide)
    · exact h (List.length_eq_zero.mp hf)
  unfold sendFiles
  rw [if_neg hcond]

theorem sentEnvelopes_sendFiles (files : List SFile) (h : files ≠ []) :
    sentEnvelopes (sendFiles true files)
      = Envelope.metadata (files.map descOf)
        :: chunkStream files ++ [Envelope.complete] := by
  rw [sendFiles_ok files h, sentEnvelopes_eq_filterMap]
  show (sendTrace files).filterMap envProj = _
  unfold sendTrace
  simp only [List.cons_append]
  rw [filterMap_envProj_cons_sent]
  rw [List.filterMap_append, filterMap_flatMap_comm]
  congr 2
  · unfold chunkStream
    apply List.flatMap_congr
    intro p _
    exact filterMap_chunkEvents p.1 p.2

/-- C4: in a successful transfer of a non-empty file set, the channel
receives exactly one `Metadata` envelope before any `Chunk` envelope and
exactly one `Complete` envelope after the last `Chunk`: the envelope
sequence is precisely `Metadata` followed by chunk envelopes only,
followed by `Complete`. -/
theorem sendFiles_envelope_order (files : List SFile) (h : files ≠ []) :
    sentEnvelopes (sendFiles true files)
      = Envelope.metadata (files.map descOf)
        :: chunkStream files ++ [Envelope.complete]
    ∧ (∀ e ∈ chunkStream files, isChunkEnv e = true)
    ∧ (sentEnvelopes (sendFiles true files)).countP isMetadataEnv = 1
    ∧ (sentEnvelopes (sendFiles true files)).countP isCompleteEnv = 1 := by
  have hes := sentEnvelopes_sendFiles files h
  have hmid := chunkStream_all_chunks files
  refine ⟨hes, hmid, ?_, ?_⟩
  · rw [hes]
    have h0 : (chunkStream files).countP isMetadataEnv = 0 := by
      rw [List.countP_eq_zero]
      intro e he
      have := hmid e he
      cases e <;> simp_all [isChunkEnv, isMetadataEnv]
    simp [List.cons_append, List.countP_cons, List.countP_append, h0,
      isMetadataEnv]
  · rw [hes]
    have h0 : (chunkStream files).countP isCompleteEnv = 0 := by
      rw [List.countP_eq_zero]
      intro e he
      have := hmid e he
      cases e <;> simp_all [isChunkEnv, isCompleteEnv]
    simp [List.cons_append, List.countP_cons, List.countP_append, h0,
      isCompleteEnv]

/-- C4 witness: the envelope sequence for one concrete 1-byte file. -/
theorem sendFiles_envelope_order_witness :
    sentEnvelopes (sendFiles true [⟨"a", "text/plain", 0, [9]⟩])
      = Envelope.metadata [⟨"a", 1, "text/plain", 0⟩]
        :: chunkStream [⟨"a", "text/plain", 0, [9]⟩] ++ [Envelope.complete]
    ∧ (sentEnvelopes (sendFiles true [⟨"a", "text/plain", 0, [9]⟩])).countP
        isMetadataEnv = 1
    ∧ (sentEnvelopes (sendFiles true [⟨"a", "text/plain", 0, [9]⟩])).countP
        isCompleteEnv = 1 := by
  have := sendFiles_envelope_order [⟨"a", "text/plain", 0, [9]⟩] (by decide)
  exact ⟨this.1, this.2.2.1, this.2.2.2⟩

/-- The image of one element is an infix of the `flatMap`. -/
theorem flatMap_infix {α β : Type} (g : α → List β) (l : List α) (a : α)
    (ha : a ∈ l) : List.IsInfix (g a) (l.flatMap g) := by
  obtain ⟨s, t, rfl⟩ := List.append_of_mem ha
  rw [List.flatMap_append, List.flatMap_cons]
  exact ⟨s.flatMap g, t.flatMap g, by rw [List.append_assoc]⟩

/-- C6 (amended): during `sendAll`, for each file in input order and each
chunk in ascending index order, the sender first updates that file's
progress to `round(100 * (chunkIndex+1) / totalChunks)` and then sends
the `Chunk` envelope: the progress write immediately followed by the
chunk send occurs as a contiguous block of the trace. -/
theorem sendFiles_progress_then_chunk (files : List SFile) (i j : Nat)
    (f : SFile) (hf : files[i]? = some f) (hj : j < fileChunks f) :
    List.IsInfix
      [Event.progressSet i (jsRound100 (j + 1) (fileChunks f)),
       Event.sent (Envelope.chunk i j (fileChunks f)
         ((f.bytes.drop (j * CHUNK_SIZE)).take CHUNK_SIZE))]
      (sendFiles true files).events := by
  have hmem : (i, f) ∈ files.enum := List.mk_mem_enum_iff_getElem?.mpr hf
  have h1 : List.IsInfix (chunkEvents i f)
      (files.enum.flatMap (fun p => chunkEvents p.1 p.2)) :=
    flatMap_infix (fun p => chunkEvents p.1 p.2) files.enum (i, f) hmem
  have hjr : j ∈ List.range (fileChunks f) := List.mem_range.mpr hj
  have h2 : List.IsInfix
      [Event.progressSet i (jsRound100 (j + 1) (fileChunks f)),
       Event.sent (Envelope.chunk i j (fileChunks f)
         ((f.bytes.drop (j * CHUNK_SIZE)).take CHUNK_SIZE))]
      (chunkEvents i f) := by
    unfold chunkEvents
    exact flatMap_infix (fun j =>
      [Event.progressSet i (jsRound100 (j + 1) (fileChunks f)),
       Event.sent (Envelope.chunk i j (fileChunks f)
         ((f.bytes.drop (j * CHUNK_SIZE)).take CHUNK_SIZE))])
      (List.range (fileChunks f)) j hjr
  have hne : files ≠ [] := by
    intro h0
    rw [h0] at hf
    simp at hf
  rw [sendFiles_ok files hne]
  show List.IsInfix _ (sendTrace files)
  unfold sendTrace
  have h4 : List.IsInfix (files.enum.flatMap (fun p => chunkEvents p.1 p.2))
      (Event.sent (Envelope.metadata (files.map descOf))
        :: (files.enum.flatMap (fun p => chunkEvents p.1 p.2))
        ++ [Event.sent Envelope.complete]) := by
    refine ⟨[Event.sent (Envelope.metadata (files.map descOf))],
      [Event.sent Envelope.complete], ?_⟩
    simp
  exact (h2.trans h1).trans h4

/-- C6 witness: the progress-write-then-chunk-send block for a concrete
one-byte file. -/
theorem sendFiles_progress_then_chunk_witness :
    ([⟨"a", "text/plain", 0, [7]⟩] : List SFile)[0]?
        = some ⟨"a", "text/plain", 0, [7]⟩
    ∧ 0 < fileChunks ⟨"a", "text/plain", 0, [7]⟩
    ∧ List.IsInfix
        [Event.progressSet 0 (jsRound100 (0 + 1)
           (fileChunks ⟨"a", "text/plain", 0, [7]⟩)),
         Event.sent (Envelope.chunk 0 0
           (fileChunks ⟨"a", "text/plain", 0, [7]⟩)
           (((⟨"a", "text/plain", 0, [7]⟩ : SFile).bytes.drop
             (0 * CHUNK_SIZE)).take CHUNK_SIZE))]
        (sendFiles true [⟨"a", "text/plain", 0, [7]⟩]).events :=
  ⟨by decide, by decide,
    sendFiles_progress_then_chunk [⟨"a", "text/plain", 0, [7]⟩] 0 0
      ⟨"a", "text/plain", 0, [7]⟩ (by decide) (by decide)⟩

/-- C6 counterexample: for a one-chunk file the trace holds the progress
write at position 1 and the chunk send at position 2 (each occurring
exactly once), so the chunk envelope is NOT sent before the progress
update, refuting the claim's send-then-update order. -/
theorem sendFiles_chunk_before_progress_false :
    ((sendFiles true [⟨"a", "text/plain", 0, [7]⟩]).events.count
       (Event.progressSet 0 100) = 1)
    ∧ ((sendFiles true [⟨"a", "text/plain", 0, [7]⟩]).events.count
       (Event.sent (Envelope.chunk 0 0 1 [7])) = 1)
    ∧ ((sendFiles true [⟨"a", "text/plain", 0, [7]⟩]).events.indexOf
       (Event.progressSet 0 100) = 1)
    ∧ ((sendFiles true [⟨"a", "text/plain", 0, [7]⟩]).events.indexOf
       (Event.sent (Envelope.chunk 0 0 1 [7])) = 2) := by
  decide

/-! ## Per-file progress (C7) -/

/-- The progress values written for file index `i`, in trace order. -/
def progressOf (tr : List Event) (i : Nat) : List Nat :=
  tr.filterMap (fun e => match e with
    | Event.progressSet k v => if k = i then some v else none
    | Event.sent _ => none)

/-- The progress sequence the chunk loop computes for a file of
`m` chunks: `round(100 * (j+1) / m)` for `j` in `[0, m)` (line 190). -/
def fileProgressList (m : Nat) : List Nat :=
  (List.range m).map (fun j => jsRound100 (j + 1) m)

/-- The progress projection of one file's chunk loop. -/
theorem progressOf_chunkEvents (k i : Nat) (g : SFile) :
    (chunkEvents k g).filterMap (fun e => match e with
      | Event.progressSet k' v => if k' = i then some v else none
      | Event.sent _ => none)
      = if k = i then fileProgressList (fileChunks g) else [] := by
  unfold chunkEvents fileProgressList
  rw [filterMap_flatMap_comm]
  by_cases hk : k = i
  · rw [if_pos hk]
    induction (List.range (fileChunks g)) with
    | nil => rfl
    | cons j t ih =>
      rw [List.flatMap_cons, List.map_cons]
      rw [ih]
      simp only [List.filterMap_cons, if_pos hk]
      rfl
  · rw [if_neg hk]
    induction (List.range (fileChunks g)) with
    | nil => rfl
    | cons j t ih =>
      rw [List.flatMap_cons, ih]
      simp only [List.filterMap_cons, if_neg hk]
      rfl

/-- Indices in `enumFrom m` are all at least `m`, so selecting an index
below `m` yields nothing. -/
theorem flatMap_enumFrom_below {β : Type} (F : Nat → SFile → List β) :
    ∀ (t : List SFile) (m j : Nat), j < m →
      ((t.enumFrom m).flatMap (fun p =>
        if p.1 = j then F p.1 p.2 else [])) = [] := by
  intro t
  induction t with
  | nil => intro m j _; rfl
  | cons g t ih =>
    intro m j hj
    show (((m, g) :: t.enumFrom (m + 1)).flatMap _) = []
    rw [List.flatMap_cons]
    rw [if_neg (by omega), ih (m + 1) j (by omega)]
    rfl

/-- Selecting index `m + i` out of `enumFrom m` picks exactly the
contribution of the element at position `i`. -/
theorem flatMap_enumFrom_select {β : Type} (F : Nat → SFile → List β) :
    ∀ (t : List SFile) (m i : Nat) (f : SFile), t[i]? = some f →
      ((t.enumFrom m).flatMap (fun p =>
        if p.1 = m + i then F p.1 p.2 else [])) = F (m + i) f := by
  intro t
  induction t with
  | nil =>
    intro m i f hf
    simp at hf
  | cons g t ih =>
    intro m i f hf
    show (((m, g) :: t.enumFrom (m + 1)).flatMap _) = _
    rw [List.flatMap_cons]
    cases i with
    | zero =>
      simp only [List.getElem?_cons_zero, Option.some.injEq] at hf
      subst hf
      rw [if_pos (by omega)]
      rw [flatMap_enumFrom_below F t (m + 1) (m + 0) (by omega)]
      simp
    | succ i =>
      simp only [List.getElem?_cons_succ] at hf
      rw [if_neg (by omega)]
      have := ih (m + 1) i f hf
      have harith : m + 1 + i = m + (i + 1) := by omega
      rw [harith] at this
      rw [this]
      rfl

/-- The progress trace of file `i` in a successful send is exactly the
chunk loop's progress sequence for that file. -/
theorem progressOf_sendFiles (files : List SFile) (i : Nat) (f : SFile)
    (hf : files[i]? = some f) :
    progressOf (sendFiles true files).events i
      = fileProgressList (fileChunks f) := by
  have hne : files ≠ [] := by
    intro h0
    rw [h0] at hf
    simp at hf
  rw [sendFiles_ok files hne]
  show progressOf (sendTrace files) i = _
  unfold progressOf sendTrace
  simp only [List.cons_append, List.filterMap_cons, List.filterMap_append]
  rw [filterMap_flatMap_comm]
  have hsel : (files.enum.flatMap (fun p =>
      if p.1 = i then fileProgressList (fileChunks p.2) else []))
      = fileProgressList (fileChunks f) := by
    have h0 : files.enum = files.enumFrom 0 := rfl
    have := flatMap_enumFrom_select
      (fun _ g => fileProgressList (fileChunks g)) files 0 i f hf
    rw [h0]
    have harith : (0 : Nat) + i = i := by omega
    rw [harith] at this
    exact this
  rw [← hsel]
  have hcongr : (files.enum.flatMap (fun p =>
      (chunkEvents p.1 p.2).filterMap (fun e => match e with
        | Event.progressSet k' v => if k' = i then some v else none
        | Event.sent _ => none)))
      = files.enum.flatMap (fun p =>
        if p.1 = i then fileProgressList (fileChunks p.2) else []) := by
    apply List.flatMap_congr
    intro p _
    exact progressOf_chunkEvents p.1 i p.2
  rw [hcongr]
  simp

theorem getD_range_map_nat (f : Nat → Nat) (n i d : Nat) (h : i < n) :
    ((List.range n).map f).getD i d = f i := by
  rw [List.getD_eq_getElem?_getD, List.getElem?_map, List.getElem?_range h]
  rfl

theorem jsRound100_mono (k k' m : Nat) (h : k ≤ k') :
    jsRound100 k m ≤ jsRound100 k' m := by
  unfold jsRound100
  exact Nat.div_le_div_right (by omega)

theorem jsRound100_lt_101 (k m : Nat) (hk : k ≤ m) (hm : 0 < m) :
    jsRound100 k m < 101 := by
  unfold jsRound100
  have hb : 0 < 2 * m := by omega
  rw [Nat.div_lt_iff_lt_mul hb]
  omega

theorem jsRound100_self (m : Nat) (hm : 0 < m) : jsRound100 m m = 100 := by
  have hlow : 100 ≤ jsRound100 m m := by
    unfold jsRound100
    rw [Nat.le_div_iff_mul_le (by omega : 0 < 2 * m)]
    omega
  have hhigh : jsRound100 m m < 101 := jsRound100_lt_101 m m (Nat.le_refl m) hm
  omega

theorem fileProgressList_length (m : Nat) : (fileProgressList m).length = m := by
  unfold fileProgressList
  simp

theorem fileProgressList_pairwise (m : Nat) :
    List.Pairwise (· ≤ ·) (fileProgressList m) := by
  unfold fileProgressList
  rw [List.pairwise_map]
  exact (List.pairwise_lt_range m).imp
    (fun h => jsRound100_mono _ _ _ (Nat.succ_le_succ (Nat.le_of_lt h)))

theorem fileProgressList_last (m : Nat) (hm : 0 < m) :
    (fileProgressList m).getD (m - 1) 0 = 100 := by
  unfold fileProgressList
  rw [getD_range_map_nat _ m (m - 1) 0 (by omega)]
  have h1 : m - 1 + 1 = m := by omega
  rw [h1]
  exact jsRound100_self m hm

theorem fileProgressList_le_100 (m : Nat) (hm : 0 < m) :
    ∀ p ∈ fileProgressList m, p ≤ 100 := by
  intro p hp
  unfold fileProgressList at hp
  rcases List.mem_map.mp hp with ⟨j, hj, hpj⟩
  rw [List.mem_range] at hj
  rw [← hpj]
  have := jsRound100_lt_101 (j + 1) m (by omega) hm
  omega

/-- C7 (amended): for every file of a transfer, the per-file progress
sequence is monotonically non-decreasing, has one value per chunk, never
exceeds 100, and the value written when the file's last chunk is
processed is exactly 100.  (The original claim's "reaches 100 exactly
once" fails: with at least 200 chunks the rounded percentage already
reaches 100 on an earlier chunk, see the counterexample.) -/
theorem sendFiles_progress_profile (files : List SFile) (i : Nat) (f : SFile)
    (hf : files[i]? = some f) (hne : f.bytes ≠ []) :
    List.Pairwise (· ≤ ·) (progressOf (sendFiles true files).events i)
    ∧ (progressOf (sendFiles true files).events i).length = fileChunks f
    ∧ (progressOf (sendFiles true files).events i).getD (fileChunks f - 1) 0
        = 100
    ∧ (∀ p ∈ progressOf (sendFiles true files).events i, p ≤ 100) := by
  have hm : 0 < fileChunks f := by
    apply totalChunks_pos
    · decide
    · have : f.bytes.length ≠ 0 := fun h0 => hne (List.length_eq_zero.mp h0)
      show 0 < f.bytes.length
      omega
  rw [progressOf_sendFiles files i f hf]
  exact ⟨fileProgressList_pairwise _, fileProgressList_length _,
    fileProgressList_last _ hm, fileProgressList_le_100 _ hm⟩

/-- C7 witness: the progress profile of a concrete 2-byte file sent with
one chunk. -/
theorem sendFiles_progress_profile_witness :
    ([⟨"a", "text/plain", 0, [5, 6]⟩] : List SFile)[0]?
        = some ⟨"a", "text/plain", 0, [5, 6]⟩
    ∧ ((⟨"a", "text/plain", 0, [5, 6]⟩ : SFile).bytes ≠ [])
    ∧ List.Pairwise (· ≤ ·)
        (progressOf (sendFiles true [⟨"a", "text/plain", 0, [5, 6]⟩]).events 0)
    ∧ (progressOf (sendFiles true [⟨"a", "text/plain", 0, [5, 6]⟩]).events
        0).getD (fileChunks ⟨"a", "text/plain", 0, [5, 6]⟩ - 1) 0 = 100 := by
  have h := sendFiles_progress_profile [⟨"a", "text/plain", 0, [5, 6]⟩] 0
    ⟨"a", "text/plain", 0, [5, 6]⟩ (by decide) (by decide)
  exact ⟨by decide, by decide, h.1, h.2.2.1⟩

set_option maxRecDepth 20000 in
/-- C7 counterexample: a 4096000-byte file has 250 chunks, and its
progress sequence attains the value 100 twice (at chunk indices 248 and
249: `round(100*249/250) = round(99.6) = 100`), refuting "reaches
exactly 100 exactly once, when that file's last chunk is sent". -/
theorem sendFiles_progress_100_twice :
    fileChunks ⟨"big", "application/octet-stream", 0,
        List.replicate 4096000 0⟩ = 250
    ∧ (progressOf (sendFiles true [⟨"big", "application/octet-stream", 0,
        List.replicate 4096000 0⟩]).events 0).count 100 = 2 := by
  have hchunks : fileChunks ⟨"big", "application/octet-stream", 0,
      List.replicate 4096000 0⟩ = 250 := by
    show totalChunks (List.replicate 4096000 (0 : Nat)).length CHUNK_SIZE = 250
    rw [List.length_replicate]
    decide
  refine ⟨hchunks, ?_⟩
  rw [progressOf_sendFiles _ 0 ⟨"big", "application/octet-stream", 0,
      List.replicate 4096000 0⟩ rfl]
  rw [hchunks]
  decide

/-! ## Content store (`localServer.ts`) -/

/-- The `FileData` record of `localServer.ts` lines 7-14. -/
structure FileData where
  id : String
  name : String
  size : Nat
  type : String
  data : List Nat
  createdAt : Nat
  deriving DecidableEq, Repr

/-- One entry of the localStorage metadata index (`saveToStorage`,
lines 178-185): `{id, name, size, type, createdAt, hasData}`. -/
structure MetaEntry where
  id : String
  name : String
  size : Nat
  type : String
  createdAt : Nat
  hasData : Bool
  deriving DecidableEq, Repr

/-- `JSON.stringify`-able projection of a record (line 178-185);
`hasData` is `data.byteLength > 0`. -/
def toMeta (f : FileData) : MetaEntry :=
  ⟨f.id, f.name, f.size, f.type, f.createdAt, decide (0 < f.data.length)⟩

/-- JS `Map.set`: update the existing entry in place, else append. -/
def mapSet : List (String × FileData) → String → FileData →
    List (String × FileData)
  | [], k, v => [(k, v)]
  | p :: rest, k, v =>
    if p.1 = k then (k, v) :: rest else p :: mapSet rest k v

/-- JS `Map.get`. -/
def mapGet (m : List (String × FileData)) (k : String) : Option FileData :=
  (m.find? (fun p => p.1 == k)).map (fun p => p.2)

/-- JS `Map.delete`'s removal effect (a `Map` holds each key at most
once, so removing every matching entry is the same operation). -/
def mapErase (m : List (String × FileData)) (k : String) :
    List (String × FileData) :=
  m.filter (fun p => !(p.1 == k))

/-- JS `Map.values()`. -/
def mapValues (m : List (String × FileData)) : List FileData :=
  m.map (fun p => p.2)

/-- IndexedDB `store.put` on an object store with `keyPath: 'id'`
(line 79): upsert keyed by the record's `id` field. -/
def dbPut : List FileData → FileData → List FileData
  | [], f => [f]
  | g :: rest, f => if g.id = f.id then f :: rest else g :: dbPut rest f

/-- IndexedDB `store.delete(fileId)` (line 103). -/
def dbDelete (d : List FileData) (fid : String) : List FileData :=
  d.filter (fun g => !(g.id == fid))

/-- IndexedDB `store.get(fileId)` (line 55). -/
def dbGet (d : List FileData) (fid : String) : Option FileData :=
  d.find? (fun g => g.id == fid)

/-- The conditional durable write of `saveToStorage` lines 189-193: only
records with non-empty bytes are written to IndexedDB. -/
def dbPutIfData (d : List FileData) (g : FileData) : List FileData :=
  if 0 < g.data.length then dbPut d g else d

/-- The three storage tiers of `localServer.ts`: the in-memory
`fileStorage` map, the localStorage metadata index (`none` = key never
written), and the IndexedDB file store. -/
structure StoreState where
  fileStorage : List (String × FileData)
  localIndex : Option (List MetaEntry)
  db : List FileData
  deriving DecidableEq, Repr

/-- `saveToStorage` (lines 175-197): rewrite the localStorage index from
the in-memory map, then write each in-memory record with non-empty data
to IndexedDB. -/
def saveToStorage (s : StoreState) : StoreState :=
  ⟨s.fileStorage,
   some ((mapValues s.fileStorage).map toMeta),
   (mapValues s.fileStorage).foldl dbPutIfData s.db⟩

/-- `storeFile` (lines 248-279): build the record from the read bytes,
insert it into the in-memory map, await `saveToStorage`, then resolve
with the new id.  The `nanoid()` result and `Date.now()` are the
`fileId` and `now` parameters. -/
def storeFile (s : StoreState) (f : SFile) (fileId : String) (now : Nat) :
    String × StoreState :=
  (fileId, saveToStorage
    ⟨mapSet s.fileStorage fileId ⟨fileId, f.name, f.size, f.type, f.bytes, now⟩,
     s.localIndex, s.db⟩)

/-- `getFileData` (lines 291-293): in-memory lookup only. -/
def getFileData (s : StoreState) (fileId : String) : Option FileData :=
  mapGet s.fileStorage fileId

/-- `deleteFile` (lines 303-310): remove from the in-memory map; if the
id was present, also delete from IndexedDB and rewrite the index via
`saveToStorage`; return whether the id was present. -/
def deleteFile (s : StoreState) (fileId : String) : Bool × StoreState :=
  if s.fileStorage.any (fun p => p.1 == fileId) then
    (true, saveToStorage
      ⟨mapErase s.fileStorage fileId, s.localIndex, dbDelete s.db fileId⟩)
  else
    (false, ⟨mapErase s.fileStorage fileId, s.localIndex, s.db⟩)

/-- The placeholder record loaded for a metadata-only index entry
(lines 152-158): the spread of the entry with an empty data buffer. -/
def placeholderOf (e : MetaEntry) : FileData :=
  ⟨e.id, e.name, e.size, e.type, [], e.createdAt⟩

/-- Loading one localStorage index entry (lines 151-159): only entries
with `hasData = false` become in-memory placeholders. -/
def metaLoad (m : List (String × FileData)) (e : MetaEntry) :
    List (String × FileData) :=
  if e.hasData then m else mapSet m e.id (placeholderOf e)

/-- Loading one IndexedDB record (lines 163-166): overrides any
placeholder of the same id. -/
def dbLoad (m : List (String × FileData)) (f : FileData) :
    List (String × FileData) :=
  mapSet m f.id f

/-- `initializeFromStorage` (lines 145-172) on given durable tiers:
localStorage placeholders first, then IndexedDB records on top. -/
def initFromStorage (idx : Option (List MetaEntry)) (db : List FileData) :
    StoreState :=
  ⟨db.foldl dbLoad
    (match idx with
     | none => []
     | some metas => metas.foldl metaLoad []),
   idx, db⟩

/-- A simulated process restart: re-run the startup reconciliation from
the current durable tiers (localStorage index and IndexedDB contents). -/
def restart (s : StoreState) : StoreState :=
  initFromStorage s.localIndex s.db

theorem mapGet_mapSet_self (m : List (String × FileData)) (k : String)
    (v : FileData) : mapGet (mapSet m k v) k = some v := by
  induction m with
  | nil => simp [mapSet, mapGet]
  | cons p rest ih =>
    by_cases h : p.1 = k
    · simp [mapSet, h, mapGet]
    · simp only [mapSet, if_neg h]
      unfold mapGet
      rw [List.find?_cons_of_neg]
      · exact ih
      · simp [h]

theorem mapGet_mapSet_ne (m : List (String × FileData)) (k k' : String)
    (v : FileData) (h : k' ≠ k) :
    mapGet (mapSet m k v) k' = mapGet m k' := by
  induction m with
  | nil =>
    unfold mapGet mapSet
    rw [List.find?_cons_of_neg]
    intro hb
    simp only [beq_iff_eq] at hb
    exact h hb.symm
  | cons p rest ih =>
    by_cases hp : p.1 = k
    · simp only [mapSet, if_pos hp]
      unfold mapGet
      rw [List.find?_cons_of_neg _ (by simp [Ne.symm h]),
        List.find?_cons_of_neg _ (by simp [hp ▸ Ne.symm h])]
    · simp only [mapSet, if_neg hp]
      by_cases hq : p.1 = k'
      · unfold mapGet
        rw [List.find?_cons_of_pos _ (by simp [hq]),
          List.find?_cons_of_pos _ (by simp [hq])]
      · unfold mapGet
        rw [List.find?_cons_of_neg _ (by simp [hq]),
          List.find?_cons_of_neg _ (by simp [hq])]
        exact ih

theorem mapGet_mapErase_self (m : List (String × FileData)) (k : String) :
    mapGet (mapErase m k) k = none := by
  unfold mapGet mapErase
  induction m with
  | nil => rfl
  | cons p rest ih =>
    by_cases h : p.1 = k
    · simp only [List.filter_cons, h]
      simpa using ih
    · simp only [List.filter_cons]
      rw [if_pos (by simp [h])]
      rw [List.find?_cons_of_neg _ (by simp [h])]
      exact ih

theorem dbGet_dbPut_self (d : List FileData) (g : FileData) :
    dbGet (dbPut d g) g.id = some g := by
  induction d with
  | nil => simp [dbPut, dbGet]
  | cons e rest ih =>
    by_cases h : e.id = g.id
    · simp [dbPut, h, dbGet]
    · simp only [dbPut, if_neg h]
      unfold dbGet
      rw [List.find?_cons_of_neg _ (by simp [h])]
      exact ih

theorem dbGet_dbPut_ne (d : List FileData) (g : FileData) (fid : String)
    (h : g.id ≠ fid) : dbGet (dbPut d g) fid = dbGet d fid := by
  induction d with
  | nil =>
    unfold dbGet dbPut
    rw [List.find?_cons_of_neg]
    intro hb
    simp only [beq_iff_eq] at hb
    exact h hb
  | cons e rest ih =>
    by_cases he : e.id = g.id
    · simp only [dbPut, if_pos he]
      unfold dbGet
      rw [List.find?_cons_of_neg _ (by simp [h]),
        List.find?_cons_of_neg _ (by simp [he ▸ h])]
    · simp only [dbPut, if_neg he]
      by_cases hq : e.id = fid
      · unfold dbGet
        rw [List.find?_cons_of_pos _ (by simp [hq]),
          List.find?_cons_of_pos _ (by simp [hq])]
      · unfold dbGet
        rw [List.find?_cons_of_neg _ (by simp [hq]),
          List.find?_cons_of_neg _ (by simp [hq])]
        exact ih

theorem dbGet_dbDelete_self (d : List FileData) (fid : String) :
    dbGet (dbDelete d fid) fid = none := by
  unfold dbGet dbDelete
  induction d with
  | nil => rfl
  | cons e rest ih =>
    by_cases h : e.id = fid
    · simp only [List.filter_cons, h]
      simpa using ih
    · simp only [List.filter_cons]
      rw [if_pos (by simp [h])]
      rw [List.find?_cons_of_neg _ (by simp [h])]
      exact ih

theorem dbGet_foldl_ne (fid : String) :
    ∀ (l : List FileData) (d : List FileData), (∀ g ∈ l, g.id ≠ fid) →
      dbGet (l.foldl dbPutIfData d) fid = dbGet d fid := by
  intro l
  induction l with
  | nil => intro d _; rfl
  | cons g rest ih =>
    intro d hall
    show dbGet (rest.foldl dbPutIfData (dbPutIfData d g)) fid = _
    rw [ih (dbPutIfData d g) (fun e he => hall e (List.mem_cons_of_mem g he))]
    unfold dbPutIfData
    by_cases hg : 0 < g.data.length
    · rw [if_pos hg]
      exact dbGet_dbPut_ne d g fid (hall g (List.mem_cons_self g rest))
    · rw [if_neg hg]

/-- C2: `storeFile` followed by `getFileData` on the returned id yields a
record with exactly the input file's bytes, name, size and type (and the
fresh id and timestamp). -/
theorem storeFile_get_roundtrip (s : StoreState) (f : SFile)
    (fileId : String) (now : Nat) :
    getFileData (storeFile s f fileId now).2 (storeFile s f fileId now).1
      = some ⟨fileId, f.name, f.size, f.type, f.bytes, now⟩ := by
  show mapGet (mapSet s.fileStorage fileId
    ⟨fileId, f.name, f.size, f.type, f.bytes, now⟩) fileId = _
  exact mapGet_mapSet_self _ _ _

theorem mapSet_cons_pos (rest : List (String × FileData))
    (p : String × FileData) (k : String) (v : FileData) (h : p.1 = k) :
    mapSet (p :: rest) k v = (k, v) :: rest := by
  simp [mapSet, h]

theorem mapSet_cons_neg (rest : List (String × FileData))
    (p : String × FileData) (k : String) (v : FileData) (h : ¬p.1 = k) :
    mapSet (p :: rest) k v = p :: mapSet rest k v := by
  simp [mapSet, h]

/-- Writing the in-memory map after a `mapSet` to the durable tier makes
the new record durably readable, provided keys are unique and records
carry their own key. -/
theorem dbGet_foldl_values_mapSet (k : String) (v : FileData)
    (hv : v.id = k) (hvd : 0 < v.data.length) :
    ∀ (m : List (String × FileData)) (d : List FileData),
      (∀ p ∈ m, p.2.id = p.1) → (m.map Prod.fst).Nodup →
      dbGet ((mapValues (mapSet m k v)).foldl dbPutIfData d) k = some v := by
  intro m
  induction m with
  | nil =>
    intro d _ _
    show dbGet (dbPutIfData d v) k = some v
    unfold dbPutIfData
    rw [if_pos hvd, ← hv]
    exact dbGet_dbPut_self d v
  | cons p rest ih =>
    intro d hwf hnd
    simp only [List.map_cons] at hnd
    by_cases hp : p.1 = k
    · rw [mapSet_cons_pos rest p k v hp]
      show dbGet ((mapValues rest).foldl dbPutIfData (dbPutIfData d v)) k
        = some v
      have hrest : ∀ g ∈ mapValues rest, g.id ≠ k := by
        intro g hg
        rcases List.mem_map.mp hg with ⟨q, hq, hgq⟩
        rw [← hgq, hwf q (List.mem_cons_of_mem p hq)]
        intro hqk
        exact (List.nodup_cons.mp hnd).1
          (by rw [hp, ← hqk]; exact List.mem_map_of_mem Prod.fst hq)
      rw [dbGet_foldl_ne k (mapValues rest) (dbPutIfData d v) hrest]
      unfold dbPutIfData
      rw [if_pos hvd, ← hv]
      exact dbGet_dbPut_self d v
    · rw [mapSet_cons_neg rest p k v hp]
      show dbGet ((mapValues (mapSet rest k v)).foldl dbPutIfData
        (dbPutIfData d p.2)) k = some v
      exact ih (dbPutIfData d p.2)
        (fun q hq => hwf q (List.mem_cons_of_mem p hq))
        (List.nodup_cons.mp hnd).2

/-- States reachable through the store API: every map entry's record
carries its own key (all call sites of `fileStorage.set` use
`record.id` as the key) and keys are unique (a JS `Map` holds each key
once). -/
def Wf (s : StoreState) : Prop :=
  (∀ p ∈ s.fileStorage, p.2.id = p.1) ∧ (s.fileStorage.map Prod.fst).Nodup

/-- The observable steps of `storeFile`'s `onload` handler, in program
order (lines 268-273): the in-memory insert, the awaited
`saveToStorage()` durable mirror, then `resolve(fileId)`. -/
inductive StoreEvent where
  | memInsert (id : String)
  | durableMirror
  | resolve (id : String)
  deriving DecidableEq, Repr

/-- The step sequence of `storeFile` (lines 268-273): `fileStorage.set`,
then `await saveToStorage()`, then `resolve(fileId)`. -/
def storeFileTrace (fileId : String) : List StoreEvent :=
  [StoreEvent.memInsert fileId, StoreEvent.durableMirror,
   StoreEvent.resolve fileId]

/-- C8 (amended): `storeFile` resolves with the id only after the
durable mirroring completes — not fire-and-forget: when the call
returns, the durable tier already holds the full record and the
metadata index has been rewritten from the in-memory map. -/
theorem storeFile_durable_on_return (s : StoreState) (f : SFile)
    (fileId : String) (now : Nat) (hwf : Wf s) (hne : f.bytes ≠ []) :
    (storeFile s f fileId now).1 = fileId
    ∧ dbGet (storeFile s f fileId now).2.db fileId
        = some ⟨fileId, f.name, f.size, f.type, f.bytes, now⟩
    ∧ (storeFile s f fileId now).2.localIndex
        = some ((mapValues (storeFile s f fileId now).2.fileStorage).map
            toMeta) := by
  have hvd : 0 < (⟨fileId, f.name, f.size, f.type, f.bytes, now⟩
      : FileData).data.length := by
    show 0 < f.bytes.length
    cases hb : f.bytes with
    | nil => exact absurd hb hne
    | cons a t => simp
  refine ⟨rfl, ?_, rfl⟩
  exact dbGet_foldl_values_mapSet fileId
    ⟨fileId, f.name, f.size, f.type, f.bytes, now⟩ rfl hvd
    s.fileStorage s.db hwf.1 hwf.2

/-- C8 witness: a store of one record into the empty store is durably
readable when the call returns. -/
theorem storeFile_durable_on_return_witness :
    (storeFile ⟨[], none, []⟩ ⟨"b", "text/plain", 0, [9]⟩ "f2" 11).1 = "f2"
    ∧ dbGet (storeFile ⟨[], none, []⟩
        ⟨"b", "text/plain", 0, [9]⟩ "f2" 11).2.db "f2"
        = some ⟨"f2", "b", 1, "text/plain", [9], 11⟩ := by
  have h := storeFile_durable_on_return ⟨[], none, []⟩
    ⟨"b", "text/plain", 0, [9]⟩ "f2" 11 ⟨by simp, by simp⟩ (by decide)
  exact ⟨h.1, h.2.1⟩

/-- C8 counterexample: the resolve step comes after the awaited durable
mirror in `storeFile`'s step sequence, and at a concrete input the
returned state's durable tier already holds the record — the caller's
result does wait on the durable-tier write, refuting fire-and-forget. -/
theorem storeFile_fire_and_forget_false :
    ((storeFileTrace "f1").indexOf StoreEvent.durableMirror
      < (storeFileTrace "f1").indexOf (StoreEvent.resolve "f1"))
    ∧ dbGet (storeFile ⟨[], none, []⟩
        ⟨"a", "text/plain", 7, [3]⟩ "f1" 5).2.db "f1"
        = some ⟨"f1", "a", 1, "text/plain", [3], 5⟩ := by
  decide

theorem mem_dbPut (d : List FileData) (g x : FileData)
    (hx : x ∈ dbPut d g) : x ∈ d ∨ x = g := by
  induction d with
  | nil =>
    simp [dbPut] at hx
    exact Or.inr hx
  | cons e rest ih =>
    by_cases h : e.id = g.id
    · rw [dbPut, if_pos h] at hx
      rcases List.mem_cons.mp hx with hx1 | hx2
      · exact Or.inr hx1
      · exact Or.inl (List.mem_cons_of_mem e hx2)
    · rw [dbPut, if_neg h] at hx
      rcases List.mem_cons.mp hx with hx1 | hx2
      · exact Or.inl (hx1 ▸ List.mem_cons_self e rest)
      · rcases ih hx2 with hz | hz
        · exact Or.inl (List.mem_cons_of_mem e hz)
        · exact Or.inr hz

theorem all_foldl_dbPutIfData (P : FileData → Prop) :
    ∀ (l : List FileData) (d : List FileData), (∀ x ∈ d, P x) →
      (∀ g ∈ l, P g) → ∀ x ∈ l.foldl dbPutIfData d, P x := by
  intro l
  induction l with
  | nil => intro d hd _ x hx; exact hd x hx
  | cons g rest ih =>
    intro d hd hl x hx
    refine ih (dbPutIfData d g) ?_ (fun e he => hl e (List.mem_cons_of_mem g he)) x hx
    intro y hy
    unfold dbPutIfData at hy
    by_cases hg : 0 < g.data.length
    · rw [if_pos hg] at hy
      rcases mem_dbPut d g y hy with hz | hz
      · exact hd y hz
      · exact hz ▸ hl g (List.mem_cons_self g rest)
    · rw [if_neg hg] at hy
      exact hd y hy

theorem mapGet_foldl_dbLoad_ne (fid : String) :
    ∀ (dbl : List FileData) (m0 : List (String × FileData)),
      mapGet m0 fid = none → (∀ g ∈ dbl, g.id ≠ fid) →
      mapGet (dbl.foldl dbLoad m0) fid = none := by
  intro dbl
  induction dbl with
  | nil => intro m0 h0 _; exact h0
  | cons g rest ih =>
    intro m0 h0 hall
    refine ih (dbLoad m0 g) ?_ (fun e he => hall e (List.mem_cons_of_mem g he))
    unfold dbLoad
    rw [mapGet_mapSet_ne m0 g.id fid g
      (fun h => hall g (List.mem_cons_self g rest) h.symm)]
    exact h0

theorem mapGet_foldl_metaLoad_ne (fid : String) :
    ∀ (metas : List MetaEntry) (m0 : List (String × FileData)),
      mapGet m0 fid = none → (∀ e ∈ metas, e.id ≠ fid) →
      mapGet (metas.foldl metaLoad m0) fid = none := by
  intro metas
  induction metas with
  | nil => intro m0 h0 _; exact h0
  | cons e rest ih =>
    intro m0 h0 hall
    refine ih (metaLoad m0 e) ?_ (fun x hx => hall x (List.mem_cons_of_mem e hx))
    unfold metaLoad
    by_cases hd : e.hasData
    · rw [if_pos hd]
      exact h0
    · rw [if_neg hd]
      rw [mapGet_mapSet_ne m0 e.id fid (placeholderOf e)
        (fun h => hall e (List.mem_cons_self e rest) h.symm)]
      exact h0

theorem mapValues_mapErase_id_ne (m : List (String × FileData))
    (fid : String) (hwf : ∀ p ∈ m, p.2.id = p.1) :
    ∀ g ∈ mapValues (mapErase m fid), g.id ≠ fid := by
  intro g hg
  rcases List.mem_map.mp hg with ⟨q, hq, hgq⟩
  have hq2 := List.mem_filter.mp hq
  rw [← hgq, hwf q hq2.1]
  intro hk
  have := hq2.2
  rw [hk] at this
  simp at this

/-- C9: `deleteFile` returns whether the id was present in the in-memory
map, after it a `getFileData` on that id is a miss, and when the id was
present the record is gone from the durable tier and a simulated restart
(reload from localStorage index and IndexedDB) does not resurrect it. -/
theorem deleteFile_spec (s : StoreState) (fid : String) (hwf : Wf s) :
    ((deleteFile s fid).1 = true ↔ ∃ p ∈ s.fileStorage, p.1 = fid)
    ∧ getFileData (deleteFile s fid).2 fid = none
    ∧ ((deleteFile s fid).1 = true →
        dbGet (deleteFile s fid).2.db fid = none
        ∧ getFileData (restart (deleteFile s fid).2) fid = none) := by
  have hvals := mapValues_mapErase_id_ne s.fileStorage fid hwf.1
  by_cases hpres : s.fileStorage.any (fun p => p.1 == fid) = true
  · have hdel : deleteFile s fid = (true, saveToStorage
        ⟨mapErase s.fileStorage fid, s.localIndex, dbDelete s.db fid⟩) := by
      unfold deleteFile
      rw [if_pos hpres]
    refine ⟨?_, ?_, ?_⟩
    · rw [hdel]
      constructor
      · intro _
        rcases List.any_eq_true.mp hpres with ⟨p, hp, hpk⟩
        exact ⟨p, hp, by simpa using hpk⟩
      · intro _
        rfl
    · rw [hdel]
      exact mapGet_mapErase_self s.fileStorage fid
    · intro _
      rw [hdel]
      constructor
      · show dbGet ((mapValues (mapErase s.fileStorage fid)).foldl
          dbPutIfData (dbDelete s.db fid)) fid = none
        rw [dbGet_foldl_ne fid _ _ hvals]
        exact dbGet_dbDelete_self s.db fid
      · show mapGet (((mapValues (mapErase s.fileStorage fid)).foldl
            dbPutIfData (dbDelete s.db fid)).foldl dbLoad
            (((mapValues (mapErase s.fileStorage fid)).map toMeta).foldl
              metaLoad [])) fid = none
        apply mapGet_foldl_dbLoad_ne
        · apply mapGet_foldl_metaLoad_ne
          · rfl
          · intro e he
            rcases List.mem_map.mp he with ⟨g, hg, hge⟩
            rw [← hge]
            exact hvals g hg
        · apply all_foldl_dbPutIfData (fun g => g.id ≠ fid)
          · intro x hx
            have hx2 := List.mem_filter.mp hx
            intro hk
            have := hx2.2
            rw [hk] at this
            simp at this
          · exact hvals
  · have hdel : deleteFile s fid = (false,
        ⟨mapErase s.fileStorage fid, s.localIndex, s.db⟩) := by
      unfold deleteFile
      rw [if_neg hpres]
    refine ⟨?_, ?_, ?_⟩
    · rw [hdel]
      constructor
      · intro hfalse
        exact Bool.noConfusion hfalse
      · intro ⟨p, hp, hpk⟩
        exact absurd (List.any_eq_true.mpr ⟨p, hp, by simpa using hpk⟩) hpres
    · rw [hdel]
      exact mapGet_mapErase_self s.fileStorage fid
    · intro hcontra
      rw [hdel] at hcontra
      exact Bool.noConfusion hcontra

/-- C9 witness: deleting the only record of a concrete store. -/
theorem deleteFile_spec_witness :
    ((deleteFile ⟨[("f1", ⟨"f1", "a", 1, "t", [1], 0⟩)],
        some [⟨"f1", "a", 1, "t", 0, true⟩],
        [⟨"f1", "a", 1, "t", [1], 0⟩]⟩ "f1").1 = true)
    ∧ getFileData (deleteFile ⟨[("f1", ⟨"f1", "a", 1, "t", [1], 0⟩)],
        some [⟨"f1", "a", 1, "t", 0, true⟩],
        [⟨"f1", "a", 1, "t", [1], 0⟩]⟩ "f1").2 "f1" = none
    ∧ dbGet (deleteFile ⟨[("f1", ⟨"f1", "a", 1, "t", [1], 0⟩)],
        some [⟨"f1", "a", 1, "t", 0, true⟩],
        [⟨"f1", "a", 1, "t", [1], 0⟩]⟩ "f1").2.db "f1" = none
    ∧ getFileData (restart (deleteFile ⟨[("f1", ⟨"f1", "a", 1, "t", [1], 0⟩)],
        some [⟨"f1", "a", 1, "t", 0, true⟩],
        [⟨"f1", "a", 1, "t", [1], 0⟩]⟩ "f1").2) "f1" = none := by
  have h := deleteFile_spec ⟨[("f1", ⟨"f1", "a", 1, "t", [1], 0⟩)],
    some [⟨"f1", "a", 1, "t", 0, true⟩],
    [⟨"f1", "a", 1, "t", [1], 0⟩]⟩ "f1" ⟨by decide, by decide⟩
  have hpres : (deleteFile ⟨[("f1", ⟨"f1", "a", 1, "t", [1], 0⟩)],
      some [⟨"f1", "a", 1, "t", 0, true⟩],
      [⟨"f1", "a", 1, "t", [1], 0⟩]⟩ "f1").1 = true :=
    h.1.mpr ⟨("f1", ⟨"f1", "a", 1, "t", [1], 0⟩), by decide, rfl⟩
  exact ⟨hpres, h.2.1, (h.2.2 hpres).1, (h.2.2 hpres).2⟩

/-- No metadata-only placeholder in the durable data tier: every record
in the IndexedDB store has non-empty bytes. -/
def DbClean (d : List FileData) : Prop := ∀ g ∈ d, 0 < g.data.length

theorem dbClean_foldl_dbPutIfData :
    ∀ (l : List FileData) (d : List FileData), DbClean d →
      DbClean (l.foldl dbPutIfData d) := by
  intro l
  induction l with
  | nil => intro d hd; exact hd
  | cons g rest ih =>
    intro d hd
    refine ih (dbPutIfData d g) ?_
    intro x hx
    unfold dbPutIfData at hx
    by_cases hg : 0 < g.data.length
    · rw [if_pos hg] at hx
      rcases mem_dbPut d g x hx with hz | hz
      · exact hd x hz
      · exact hz ▸ hg
    · rw [if_neg hg] at hx
      exact hd x hx

theorem dbClean_dbDelete (d : List FileData) (fid : String)
    (hd : DbClean d) : DbClean (dbDelete d fid) := by
  intro x hx
  exact hd x (List.mem_filter.mp hx).1

/-- C10: every store operation preserves the invariant that only records
with non-empty bytes are written to the IndexedDB data tier — placeholder
records (empty byte sequence, `hasData = false`) live only in the
localStorage metadata index, never in the durable data store. -/
theorem store_db_no_placeholders (s : StoreState) (f : SFile)
    (fileId fid : String) (now : Nat) (h : DbClean s.db) :
    DbClean (saveToStorage s).db
    ∧ DbClean (storeFile s f fileId now).2.db
    ∧ DbClean (deleteFile s fid).2.db
    ∧ DbClean (restart s).db := by
  refine ⟨?_, ?_, ?_, h⟩
  · exact dbClean_foldl_dbPutIfData (mapValues s.fileStorage) s.db h
  · exact dbClean_foldl_dbPutIfData
      (mapValues (mapSet s.fileStorage fileId
        ⟨fileId, f.name, f.size, f.type, f.bytes, now⟩)) s.db h
  · unfold deleteFile
    by_cases hpres : s.fileStorage.any (fun p => p.1 == fid) = true
    · rw [if_pos hpres]
      exact dbClean_foldl_dbPutIfData _ _ (dbClean_dbDelete s.db fid h)
    · rw [if_neg hpres]
      exact h

/-- C10 witness: storing an empty file over a store that holds an
in-memory placeholder writes nothing to the durable data tier. -/
theorem store_db_no_placeholders_witness :
    DbClean ((storeFile ⟨[("p1", ⟨"p1", "n", 5, "t", [], 3⟩)], none, []⟩
      ⟨"e", "t", 0, []⟩ "e1" 9).2.db)
    ∧ DbClean ((deleteFile ⟨[("p1", ⟨"p1", "n", 5, "t", [], 3⟩)], none, []⟩
      "p1").2.db) := by
  have h := store_db_no_placeholders
    ⟨[("p1", ⟨"p1", "n", 5, "t", [], 3⟩)], none, []⟩
    ⟨"e", "t", 0, []⟩ "e1" "p1" 9 (fun g hg => absurd hg (List.not_mem_nil g))
  exact ⟨h.2.1, h.2.2.1⟩
